import Mathlib

/-!
Verification of the `brrrr` record-to-columnar conversion pipeline
(`brrrr-lib/src/parquet_writer.rs`).

The three conversions `gff2pq`, `write_records_to_file` (the worker behind
`fa2pq`) and `fq2pq` each pull a lazy stream of decode results
(`Result<Record, Error>`), group it into chunks of `2^20` records, fill one
append-only column builder per output column for the chunk, assemble the
finished arrays into a record batch, write the batch to an `ArrowWriter`
sink, and finally close the sink.

This file embeds that pipeline shallowly:
* a column builder is the list of cells appended so far — a nullable
  (`StringBuilder` / `Int64Builder`) column is a `List (Option _)` where
  `append_value v` appends `some v` and `append_null` appends `none`;
  a plain `Vec<String>` column (used by the FASTA path) is a `List String`;
* the `MapBuilder` used for the GFF `attribute` column is a pair of flat
  key/value sub-builders plus the list of per-record entry counts recorded
  by sealing (`attribute_builder.append(true)`);
* the `ArrowWriter` sink is a trace of `SinkEvent`s: one `write` per batch
  handed to `writer.write`, and one `close` for `writer.close`;
* the decode stream is a `List (Except ε record)`;
* `panic!` (used by the FASTA path on a parse error) and `return Err(e)`
  (used by the GFF/FASTQ paths) are distinguished outcomes of a run —
  a panic aborts the function without returning a `Result` to the caller.
-/

/-- Modelled from the spec: the normalized FASTA record shape from the
repository's `types.rs`, which is not among the given sources.  Field types
follow the spec's data model (`id` and `sequence` required strings,
`description` an optional string) and match how `write_records_to_file`
consumes the fields. -/
structure FastaRecord where
  id : String
  description : Option String
  sequence : String
deriving DecidableEq

/-- Modelled from the spec: the normalized FASTQ record shape from the
repository's `types.rs`, which is not among the given sources.  Field types
follow the spec's data model; `read_number` is not a field of the source
record — `fq2pq` assigns it from a pipeline-local counter. -/
structure FastqRecord where
  id : String
  sequence : String
  description : Option String
  quality : String
deriving DecidableEq

/-- Modelled from the spec: the normalized GFF record shape from the
repository's `types.rs`, which is not among the given sources.  Field types
are constrained by how `gff2pq` consumes them: `source` is passed directly
to `append_value` (so it is a plain string, not an option), `score` and
`frame` are matched as options, and `attribute` is the spec's insertion
ordered mapping, embedded as a list of key/value pairs in source order. -/
structure GffRecord where
  seqname : String
  source : String
  feature : String
  start : Int
  «end» : Int
  score : Option Int
  strand : String
  frame : Option String
  «attribute» : List (String × String)
deriving DecidableEq

/-- Outcome of one conversion call: a normal `Ok(())` return, an `Err(e)`
return, or a `panic!` (which aborts the function without returning a
`Result` to the caller). -/
inductive RunResult (ε : Type) where
  | success : RunResult ε
  | error (e : ε) : RunResult ε
  | panicked (e : ε) : RunResult ε
deriving DecidableEq

/-- One interaction with the `ArrowWriter` sink: `writer.write(&rb)` or
`writer.close()`. -/
inductive SinkEvent (β : Type) where
  | write (b : β) : SinkEvent β
  | close : SinkEvent β
deriving DecidableEq

/-- The batches handed to `writer.write`, in order, extracted from a sink
trace. -/
def batchesOf {β : Type} (tr : List (SinkEvent β)) : List β :=
  tr.filterMap fun e =>
    match e with
    | SinkEvent.write b => some b
    | SinkEvent.close => none

/-- One append to a nullable builder, mirroring the source's
`match o { Some(x) => b.append_value(x), None => b.append_null() }`. -/
def optAppend {α : Type} (col : List (Option α)) : Option α → List (Option α)
  | some x => col ++ [some x]
  | none => col ++ [none]

/-- The `MapBuilder` state for the GFF `attribute` column: the flat key and
value sub-builders plus, per sealed map entry (one per record), the number
of key/value pairs that entry covers. -/
structure MapCol where
  keys : List String
  values : List (Option String)
  entrySizes : List Nat
deriving DecidableEq

/-- The column builder set of `gff2pq` (one builder per schema column). -/
structure GffBuilders where
  seqname : List (Option String)
  source : List (Option String)
  feature : List (Option String)
  start : List (Option Int)
  «end» : List (Option Int)
  score : List (Option Int)
  strand : List (Option String)
  frame : List (Option String)
  «attribute» : MapCol
deriving DecidableEq

def GffBuilders.empty : GffBuilders :=
  ⟨[], [], [], [], [], [], [], [], ⟨[], [], []⟩⟩

/-- Row count of a GFF batch (all columns agree; proved as row-count
parity). -/
def GffBuilders.numRows (b : GffBuilders) : Nat :=
  b.seqname.length

/-- The lengths of all nine columns of a GFF batch; for the map column the
length is the number of sealed entries. -/
def GffBuilders.colLengths (b : GffBuilders) : List Nat :=
  [b.seqname.length, b.source.length, b.feature.length, b.start.length,
   b.«end».length, b.score.length, b.strand.length, b.frame.length,
   b.«attribute».entrySizes.length]

/-- The per-record body of `gff2pq`'s chunk loop (`parquet_writer.rs`
lines 98-132): every required column gets `append_value`, `score` and
`frame` are matched value/null, and the attribute map appends every key,
then every value, then seals one entry. -/
def gffAppend (b : GffBuilders) (r : GffRecord) : GffBuilders where
  seqname := b.seqname ++ [some r.seqname]
  source := b.source ++ [some r.source]
  feature := b.feature ++ [some r.feature]
  start := b.start ++ [some r.start]
  «end» := b.«end» ++ [some r.«end»]
  score := optAppend b.score r.score
  strand := b.strand ++ [some r.strand]
  frame := optAppend b.frame r.frame
  «attribute» :=
    ⟨b.«attribute».keys ++ r.«attribute».map Prod.fst,
     b.«attribute».values ++ r.«attribute».map (fun kv => some kv.2),
     b.«attribute».entrySizes ++ [r.«attribute».length]⟩

/-- The column builder set of `write_records_to_file`: `id` and `sequence`
are plain `Vec<String>`s (turned into `StringArray`s without nulls),
`description` is a nullable `StringBuilder`. -/
structure FastaBuilders where
  id : List String
  description : List (Option String)
  sequence : List String
deriving DecidableEq

def FastaBuilders.empty : FastaBuilders := ⟨[], [], []⟩

def FastaBuilders.numRows (b : FastaBuilders) : Nat :=
  b.id.length

def FastaBuilders.colLengths (b : FastaBuilders) : List Nat :=
  [b.id.length, b.description.length, b.sequence.length]

/-- The per-record body of `write_records_to_file`'s chunk loop
(`parquet_writer.rs` lines 192-208). -/
def faAppend (b : FastaBuilders) (r : FastaRecord) : FastaBuilders where
  id := b.id ++ [r.id]
  description := optAppend b.description r.description
  sequence := b.sequence ++ [r.sequence]

/-- The column builder set of `fq2pq` (all five columns are nullable
builders; only `description` ever receives a null). -/
structure FqBuilders where
  id : List (Option String)
  sequence : List (Option String)
  description : List (Option String)
  quality : List (Option String)
  number : List (Option Int)
deriving DecidableEq

def FqBuilders.empty : FqBuilders := ⟨[], [], [], [], []⟩

def FqBuilders.numRows (b : FqBuilders) : Nat :=
  b.id.length

def FqBuilders.colLengths (b : FqBuilders) : List Nat :=
  [b.id.length, b.sequence.length, b.description.length, b.quality.length,
   b.number.length]

/-- The per-record body of `fq2pq`'s chunk loop (`parquet_writer.rs`
lines 314-326): besides the record fields, the pipeline-local
`read_number` counter is appended to the `number` column and then
incremented. -/
def fqAppend (s : FqBuilders × Int) (r : FastqRecord) : FqBuilders × Int :=
  (⟨s.1.id ++ [some r.id],
    s.1.sequence ++ [some r.sequence],
    optAppend s.1.description r.description,
    s.1.quality ++ [some r.quality],
    s.1.number ++ [some s.2]⟩,
   s.2 + 1)

/-- `itertools`' `chunks(n)`: the input split into successive groups, every
group but possibly the last of size `n` (for `0 < n`); no empty group is
ever produced. -/
def chunkList {α : Type} (n : Nat) : List α → List (List α)
  | [] => []
  | x :: xs => (x :: xs.take (n - 1)) :: chunkList n (xs.drop (n - 1))
termination_by l => l.length
decreasing_by
  simp only [List.length_drop, List.length_cons]
  omega

/-- The inner record loop over one chunk of decode results: each `Ok`
record is appended, the first `Err` aborts the chunk with that error
(`let record = chunk_i?;` in `gff2pq`, the explicit `match` in `fq2pq` and
`write_records_to_file`). -/
def processChunk {ε ρ σ : Type} (ap : σ → ρ → σ) : σ → List (Except ε ρ) → Except ε σ
  | s, [] => Except.ok s
  | s, Except.ok r :: rest => processChunk ap (ap s r) rest
  | _, Except.error e :: _ => Except.error e

/-- The chunked conversion loop shared by `gff2pq` and
`write_records_to_file`: for each chunk, fresh builders are filled from
`init`; a decode error aborts the whole run with `onErr` (an `Err` return
for `gff2pq`, a `panic!` for `write_records_to_file`) and the sink is not
closed; otherwise the finished batch is written and the loop continues; on
exhaustion the sink is closed once and the run succeeds. -/
def runLoop {ε ρ σ β : Type} (n : Nat) (ap : σ → ρ → σ) (fin : σ → β) (init : σ)
    (onErr : ε → RunResult ε) : List (Except ε ρ) → List (SinkEvent β) × RunResult ε
  | [] => ([SinkEvent.close], RunResult.success)
  | x :: xs =>
    match processChunk ap init (x :: xs.take (n - 1)) with
    | Except.error e => ([], onErr e)
    | Except.ok s =>
      let rest := runLoop n ap fin init onErr (xs.drop (n - 1))
      (SinkEvent.write (fin s) :: rest.1, rest.2)
termination_by l => l.length
decreasing_by
  simp only [List.length_drop, List.length_cons]
  omega

/-- The conversion loop of `fq2pq` (`parquet_writer.rs` lines 311-371):
builders and the `read_number` counter live outside the chunk loop; after a
chunk, the batch is written only under the `id_builder.len() > 0` guard, in
which case `finish`/re-creation resets every builder while the counter
carries over; a decode error returns `Err` immediately without closing the
sink. -/
def fqLoop {ε : Type} (n : Nat) (b : FqBuilders) (cnt : Int) :
    List (Except ε FastqRecord) → List (SinkEvent FqBuilders) × RunResult ε
  | [] => ([SinkEvent.close], RunResult.success)
  | x :: xs =>
    match processChunk fqAppend (b, cnt) (x :: xs.take (n - 1)) with
    | Except.error e => ([], RunResult.error e)
    | Except.ok s =>
      if 0 < s.1.id.length then
        let rest := fqLoop n FqBuilders.empty s.2 (xs.drop (n - 1))
        (SinkEvent.write s.1 :: rest.1, rest.2)
      else
        let rest := fqLoop n s.1 s.2 (xs.drop (n - 1))
        (rest.1, rest.2)
termination_by l => l.length
decreasing_by
  all_goals simp only [List.length_drop, List.length_cons]
  all_goals omega

/-- `let chunk_size = 2usize.pow(20);` — the fixed chunk size of all three
conversions. -/
def chunk_size : Nat := 2 ^ 20

/-- `gff2pq` on a decode stream: the sink trace and the run outcome. -/
def gff2pq {ε : Type} (results : List (Except ε GffRecord)) :
    List (SinkEvent GffBuilders) × RunResult ε :=
  runLoop chunk_size gffAppend (fun b => b) GffBuilders.empty RunResult.error results

/-- `write_records_to_file` on a decode stream: identical chunk loop shape,
but a decode error raises `panic!("{}", error)` instead of returning it. -/
def write_records_to_file {ε : Type} (results : List (Except ε FastaRecord)) :
    List (SinkEvent FastaBuilders) × RunResult ε :=
  runLoop chunk_size faAppend (fun b => b) FastaBuilders.empty RunResult.panicked results

/-- `fa2pq` opens the input (plain or gzipped) and delegates every record
to `write_records_to_file`. -/
def fa2pq {ε : Type} (results : List (Except ε FastaRecord)) :
    List (SinkEvent FastaBuilders) × RunResult ε :=
  write_records_to_file results

/-- `fq2pq` on a decode stream. -/
def fq2pq {ε : Type} (results : List (Except ε FastqRecord)) :
    List (SinkEvent FqBuilders) × RunResult ε :=
  fqLoop chunk_size FqBuilders.empty 0 results

/-- Closed form for the builder set after one GFF chunk: each column is the
previous contents extended with one cell (resp. one sealed map entry) per
record, in record order. -/
def gffOfChunk (b : GffBuilders) (c : List GffRecord) : GffBuilders where
  seqname := b.seqname ++ c.map (fun r => some r.seqname)
  source := b.source ++ c.map (fun r => some r.source)
  feature := b.feature ++ c.map (fun r => some r.feature)
  start := b.start ++ c.map (fun r => some r.start)
  «end» := b.«end» ++ c.map (fun r => some r.«end»)
  score := b.score ++ c.map (fun r => r.score)
  strand := b.strand ++ c.map (fun r => some r.strand)
  frame := b.frame ++ c.map (fun r => r.frame)
  «attribute» :=
    ⟨b.«attribute».keys ++ (c.map (fun r => r.«attribute».map Prod.fst)).flatten,
     b.«attribute».values ++ (c.map (fun r => r.«attribute».map (fun kv => some kv.2))).flatten,
     b.«attribute».entrySizes ++ c.map (fun r => r.«attribute».length)⟩

/-- Closed form for the builder set after one FASTA chunk. -/
def faOfChunk (b : FastaBuilders) (c : List FastaRecord) : FastaBuilders where
  id := b.id ++ c.map (fun r => r.id)
  description := b.description ++ c.map (fun r => r.description)
  sequence := b.sequence ++ c.map (fun r => r.sequence)

/-- Closed form for the FASTQ builder set and counter after one chunk
starting from counter value `s.2`: the `number` column receives the
consecutive counter values `s.2, s.2 + 1, …`. -/
def fqOfChunk (s : FqBuilders × Int) (c : List FastqRecord) : FqBuilders × Int :=
  (⟨s.1.id ++ c.map (fun r => some r.id),
    s.1.sequence ++ c.map (fun r => some r.sequence),
    s.1.description ++ c.map (fun r => r.description),
    s.1.quality ++ c.map (fun r => some r.quality),
    s.1.number ++ (List.range c.length).map (fun i : Nat => some (s.2 + (i : Int)))⟩,
   s.2 + c.length)

/-- The batches produced by `fq2pq` for a list of chunks, threading the
`read_number` counter across chunks without resetting it. -/
def fqBatches (cnt : Int) : List (List FastqRecord) → List FqBuilders
  | [] => []
  | c :: cs => (fqOfChunk (FqBuilders.empty, cnt) c).1 :: fqBatches (cnt + c.length) cs

/-- Split a flat list into consecutive blocks of the given sizes (used to
read the per-record entries back out of the flat key/value sub-builders of
the map column). -/
def splitSizes {α : Type} : List Nat → List α → List (List α)
  | [], _ => []
  | k :: ks, xs => xs.take k :: splitSizes ks (xs.drop k)

/-- The per-record entry lists encoded by a map column: the flat key/value
pairs regrouped by the sealed entry sizes. -/
def MapCol.rows (m : MapCol) : List (List (String × Option String)) :=
  splitSizes m.entrySizes (m.keys.zip m.values)

/-- One step of the record-at-a-time view of the conversion loop: the
pending records grow by the new record, and as soon as they reach the chunk
size the batch is built and flushed, emptying the pending buffer.  This is
the lazy pull semantics of `records.chunks(chunk_size)`: the iterator
materializes at most one chunk. -/
def streamStep {ρ β : Type} (n : Nat) (mk : List ρ → β) (s : List ρ × List β) (r : ρ) :
    List ρ × List β :=
  let buf := s.1 ++ [r]
  if buf.length = n then ([], s.2 ++ [mk buf]) else (buf, s.2)

/-- Number of records held in the pending buffer after consuming a prefix
of the input record-by-record. -/
def streamBuffer {ρ β : Type} (n : Nat) (mk : List ρ → β) (pre : List ρ) : Nat :=
  (pre.foldl (streamStep n mk) ([], [])).1.length

/-- All batches produced by the record-at-a-time view: the flushed batches
plus the final partial buffer if it is nonempty. -/
def streamRun {ρ β : Type} (n : Nat) (mk : List ρ → β) (records : List ρ) : List β :=
  let fin := records.foldl (streamStep n mk) ([], [])
  if fin.1.isEmpty then fin.2 else fin.2 ++ [mk fin.1]

theorem optAppend_eq {α : Type} (col : List (Option α)) (o : Option α) :
    optAppend col o = col ++ [o] := by
  cases o <;> rfl

@[simp] theorem batchesOf_nil {β : Type} : batchesOf ([] : List (SinkEvent β)) = [] := rfl

@[simp] theorem batchesOf_write {β : Type} (b : β) (t : List (SinkEvent β)) :
    batchesOf (SinkEvent.write b :: t) = b :: batchesOf t := rfl

@[simp] theorem batchesOf_close {β : Type} (t : List (SinkEvent β)) :
    batchesOf (SinkEvent.close :: t) = batchesOf t := rfl

@[simp] theorem batchesOf_append {β : Type} (t₁ t₂ : List (SinkEvent β)) :
    batchesOf (t₁ ++ t₂) = batchesOf t₁ ++ batchesOf t₂ := by
  simp [batchesOf]

@[simp] theorem batchesOf_map_write {β : Type} (l : List β) :
    batchesOf (l.map SinkEvent.write) = l := by
  induction l with
  | nil => rfl
  | cons b t ih => simp [ih]

theorem processChunk_map_ok {ε ρ σ : Type} (ap : σ → ρ → σ) :
    ∀ (c : List ρ) (s : σ),
      processChunk (ε := ε) ap s (c.map Except.ok) = Except.ok (c.foldl ap s) := by
  intro c
  induction c with
  | nil => intro s; rfl
  | cons r t ih => intro s; simpa [processChunk] using ih (ap s r)

theorem processChunk_pre_error {ε ρ σ : Type} (ap : σ → ρ → σ) (e : ε) :
    ∀ (pre : List ρ) (t : List (Except ε ρ)) (s : σ),
      processChunk ap s (pre.map Except.ok ++ Except.error e :: t) = Except.error e := by
  intro pre
  induction pre with
  | nil => intro t s; rfl
  | cons r rs ih => intro t s; simpa [processChunk] using ih t (ap s r)

theorem processChunk_ok_inv {ε ρ σ : Type} (ap : σ → ρ → σ) :
    ∀ (c : List (Except ε ρ)) (s s' : σ),
      processChunk ap s c = Except.ok s' →
      ∃ recs : List ρ, c = recs.map Except.ok ∧ s' = recs.foldl ap s := by
  intro c
  induction c with
  | nil =>
    intro s s' h
    exact ⟨[], rfl, by simpa [processChunk] using (Except.ok.injEq .. ▸ h).symm⟩
  | cons x t ih =>
    intro s s' h
    cases x with
    | ok r =>
      obtain ⟨recs, hc, hs⟩ := ih (ap s r) s' (by simpa [processChunk] using h)
      exact ⟨r :: recs, by simp [hc], by simp [hs]⟩
    | error e => simp [processChunk] at h

theorem foldl_gffAppend : ∀ (c : List GffRecord) (b : GffBuilders),
    c.foldl gffAppend b = gffOfChunk b c := by
  intro c
  induction c with
  | nil => intro b; cases b; simp [gffOfChunk]
  | cons r t ih =>
    intro b
    have := ih (gffAppend b r)
    simp only [List.foldl_cons, this]
    cases b
    simp [gffOfChunk, gffAppend, optAppend_eq, List.append_assoc]

theorem foldl_faAppend : ∀ (c : List FastaRecord) (b : FastaBuilders),
    c.foldl faAppend b = faOfChunk b c := by
  intro c
  induction c with
  | nil => intro b; cases b; simp [faOfChunk]
  | cons r t ih =>
    intro b
    have := ih (faAppend b r)
    simp only [List.foldl_cons, this]
    cases b
    simp [faOfChunk, faAppend, optAppend_eq, List.append_assoc]

theorem range_number (cnt : Int) (m : Nat) :
    some cnt :: (List.range m).map (fun i : Nat => some (cnt + 1 + (i : Int))) =
    (List.range (m + 1)).map (fun i : Nat => some (cnt + (i : Int))) := by
  rw [List.range_succ_eq_map]
  simp only [List.map_cons, List.map_map, Nat.cast_zero, add_zero]
  refine congrArg₂ List.cons rfl ?_
  apply List.map_congr_left
  intro i _
  simp only [Function.comp_apply]
  congr 1
  push_cast
  ring

theorem foldl_fqAppend : ∀ (c : List FastqRecord) (s : FqBuilders × Int),
    c.foldl fqAppend s = fqOfChunk s c := by
  intro c
  induction c with
  | nil =>
    intro s
    obtain ⟨⟨i, sq, d, q, nu⟩, cnt⟩ := s
    simp [fqOfChunk]
  | cons r t ih =>
    intro s
    have := ih (fqAppend s r)
    simp only [List.foldl_cons, this]
    obtain ⟨⟨i, sq, d, q, nu⟩, cnt⟩ := s
    simp only [fqOfChunk, fqAppend, optAppend_eq, List.length_cons, Prod.mk.injEq,
      FqBuilders.mk.injEq, List.append_assoc, List.singleton_append]
    refine ⟨⟨rfl, rfl, rfl, rfl, ?_⟩, by push_cast; ring⟩
    rw [range_number]

@[simp] theorem chunkList_nil {α : Type} (n : Nat) : chunkList n ([] : List α) = [] := by
  rw [chunkList]

@[simp] theorem chunkList_cons {α : Type} (n : Nat) (x : α) (xs : List α) :
    chunkList n (x :: xs) = (x :: xs.take (n - 1)) :: chunkList n (xs.drop (n - 1)) := by
  rw [chunkList]

theorem chunkList_ne_nil {α : Type} (n : Nat) (l : List α) :
    ∀ c ∈ chunkList n l, c ≠ [] := by
  suffices h : ∀ (k : Nat) (l : List α), l.length ≤ k → ∀ c ∈ chunkList n l, c ≠ [] from
    h l.length l le_rfl
  intro k
  induction k with
  | zero =>
    intro l hl
    rw [List.eq_nil_of_length_eq_zero (Nat.le_zero.mp hl)]
    simp
  | succ k ih =>
    intro l hl
    match l with
    | [] => simp
    | x :: xs =>
      intro c hc
      rw [chunkList_cons, List.mem_cons] at hc
      rcases hc with hc | hc
      · simp [hc]
      · exact ih (xs.drop (n - 1)) (by simp at hl ⊢; omega) c hc

theorem chunkList_flatten {α : Type} (n : Nat) (l : List α) :
    (chunkList n l).flatten = l := by
  suffices h : ∀ (k : Nat) (l : List α), l.length ≤ k → (chunkList n l).flatten = l from
    h l.length l le_rfl
  intro k
  induction k with
  | zero =>
    intro l hl
    rw [List.eq_nil_of_length_eq_zero (Nat.le_zero.mp hl)]
    simp
  | succ k ih =>
    intro l hl
    match l with
    | [] => simp
    | x :: xs =>
      rw [chunkList_cons]
      simp only [List.flatten_cons]
      rw [ih (xs.drop (n - 1)) (by simp at hl ⊢; omega)]
      simp

theorem chunkList_small {α : Type} {n : Nat} {l : List α} (hne : l ≠ []) (hle : l.length ≤ n) :
    chunkList n l = [l] := by
  match l with
  | [] => exact absurd rfl hne
  | x :: xs =>
    rw [chunkList_cons]
    have h1 : xs.length ≤ n - 1 := by simp at hle; omega
    rw [List.take_of_length_le h1, List.drop_eq_nil_of_le h1, chunkList_nil]

theorem chunkList_append {α : Type} {n : Nat} (hn : 0 < n) {l₁ : List α} (l₂ : List α)
    (h : l₁.length = n) : chunkList n (l₁ ++ l₂) = l₁ :: chunkList n l₂ := by
  match l₁ with
  | [] => simp at h; omega
  | x :: xs =>
    rw [List.cons_append, chunkList_cons]
    have hx : xs.length = n - 1 := by simp at h; omega
    rw [List.take_left' hx, List.drop_left' hx]

theorem chunkList_length_le {α : Type} {n : Nat} (hn : 0 < n) (l : List α) :
    ∀ c ∈ chunkList n l, c.length ≤ n := by
  suffices h : ∀ (k : Nat) (l : List α), l.length ≤ k → ∀ c ∈ chunkList n l, c.length ≤ n from
    h l.length l le_rfl
  intro k
  induction k with
  | zero =>
    intro l hl
    rw [List.eq_nil_of_length_eq_zero (Nat.le_zero.mp hl)]
    simp
  | succ k ih =>
    intro l hl
    match l with
    | [] => simp
    | x :: xs =>
      intro c hc
      rw [chunkList_cons, List.mem_cons] at hc
      rcases hc with hc | hc
      · subst hc
        simp only [List.length_cons]
        have := List.length_take_le (n - 1) xs
        omega
      · exact ih (xs.drop (n - 1)) (by simp at hl ⊢; omega) c hc

theorem chunkList_sizes_exact {α : Type} {n : Nat} (hn : 0 < n) :
    ∀ (k : Nat) (l : List α), l.length = k * n →
      (chunkList n l).map List.length = List.replicate k n := by
  intro k
  induction k with
  | zero =>
    intro l hl
    simp only [Nat.zero_mul] at hl
    rw [List.eq_nil_of_length_eq_zero hl]
    simp
  | succ k ih =>
    intro l hl
    have hlen : n ≤ l.length := by
      rw [hl]
      calc n ≤ k * n + n := by omega
        _ = (k + 1) * n := by ring
    have hsplit : l = l.take n ++ l.drop n := (List.take_append_drop n l).symm
    rw [hsplit, chunkList_append hn _ (by rw [List.length_take]; omega)]
    simp only [List.map_cons, List.length_take]
    rw [ih (l.drop n) (by rw [List.length_drop, hl]; ring_nf; omega)]
    rw [List.replicate_succ]
    congr 1
    omega

theorem chunkList_sizes_rem {α : Type} {n : Nat} (hn : 0 < n) :
    ∀ (k : Nat) (l : List α) (r : Nat), 0 < r → r ≤ n → l.length = k * n + r →
      (chunkList n l).map List.length = List.replicate k n ++ [r] := by
  intro k
  induction k with
  | zero =>
    intro l r hr hrn hl
    simp only [Nat.zero_mul, Nat.zero_add] at hl
    rw [chunkList_small (by intro h; subst h; simp at hl; omega) (by omega)]
    simp [hl]
  | succ k ih =>
    intro l r hr hrn hl
    have hlen : n ≤ l.length := by
      rw [hl]
      calc n ≤ k * n + n := by omega
        _ = (k + 1) * n := by ring
        _ ≤ (k + 1) * n + r := by omega
    have hsplit : l = l.take n ++ l.drop n := (List.take_append_drop n l).symm
    rw [hsplit, chunkList_append hn _ (by rw [List.length_take]; omega)]
    simp only [List.map_cons, List.length_take]
    rw [ih (l.drop n) r hr hrn (by rw [List.length_drop, hl]; ring_nf; omega)]
    rw [List.replicate_succ]
    simp only [List.cons_append]
    congr 2
    omega

@[simp] theorem runLoop_nil {ε ρ σ β : Type} (n : Nat) (ap : σ → ρ → σ) (fin : σ → β)
    (init : σ) (onErr : ε → RunResult ε) :
    runLoop n ap fin init onErr [] = ([SinkEvent.close], RunResult.success) := by
  rw [runLoop]

theorem runLoop_cons {ε ρ σ β : Type} (n : Nat) (ap : σ → ρ → σ) (fin : σ → β)
    (init : σ) (onErr : ε → RunResult ε) (x : Except ε ρ) (xs : List (Except ε ρ)) :
    runLoop n ap fin init onErr (x :: xs) =
      match processChunk ap init (x :: xs.take (n - 1)) with
      | Except.error e => ([], onErr e)
      | Except.ok s =>
        let rest := runLoop n ap fin init onErr (xs.drop (n - 1))
        (SinkEvent.write (fin s) :: rest.1, rest.2) := by
  rw [runLoop]

theorem runLoop_map_ok {ε ρ σ β : Type} (n : Nat) (ap : σ → ρ → σ) (fin : σ → β)
    (init : σ) (onErr : ε → RunResult ε) (records : List ρ) :
    runLoop n ap fin init onErr (records.map Except.ok) =
      ((chunkList n records).map (fun c => SinkEvent.write (fin (c.foldl ap init)))
        ++ [SinkEvent.close], RunResult.success) := by
  suffices h : ∀ (k : Nat) (records : List ρ), records.length ≤ k →
      runLoop n ap fin init onErr (records.map Except.ok) =
        ((chunkList n records).map (fun c => SinkEvent.write (fin (c.foldl ap init)))
          ++ [SinkEvent.close], RunResult.success) from h records.length records le_rfl
  intro k
  induction k with
  | zero =>
    intro records hl
    rw [List.eq_nil_of_length_eq_zero (Nat.le_zero.mp hl)]
    simp
  | succ k ih =>
    intro records hl
    match records with
    | [] => simp
    | r :: rs =>
      rw [List.map_cons, runLoop_cons]
      have hchunk : Except.ok (ε := ε) r :: (rs.map Except.ok).take (n - 1) =
          (r :: rs.take (n - 1)).map Except.ok := by
        rw [List.map_cons, List.map_take]
      rw [hchunk, processChunk_map_ok]
      have hdrop : (rs.map (Except.ok (ε := ε))).drop (n - 1) =
          (rs.drop (n - 1)).map Except.ok := by
        rw [List.map_drop]
      rw [hdrop]
      simp only []
      rw [ih (rs.drop (n - 1)) (by simp at hl ⊢; omega)]
      rw [chunkList_cons]
      simp

theorem runLoop_error {ε ρ σ β : Type} (n : Nat) (ap : σ → ρ → σ) (fin : σ → β)
    (init : σ) (onErr : ε → RunResult ε) (pre : List ρ) (e : ε) (post : List (Except ε ρ)) :
    runLoop n ap fin init onErr (pre.map Except.ok ++ Except.error e :: post) =
      runLoop n ap fin init onErr (pre.map Except.ok ++ [Except.error e]) ∧
    (runLoop n ap fin init onErr (pre.map Except.ok ++ Except.error e :: post)).2 = onErr e := by
  suffices h : ∀ (k : Nat) (pre : List ρ), pre.length ≤ k → ∀ (post : List (Except ε ρ)),
      runLoop n ap fin init onErr (pre.map Except.ok ++ Except.error e :: post) =
        runLoop n ap fin init onErr (pre.map Except.ok ++ [Except.error e]) ∧
      (runLoop n ap fin init onErr (pre.map Except.ok ++ Except.error e :: post)).2 = onErr e from
    h pre.length pre le_rfl post
  intro k
  induction k with
  | zero =>
    intro pre hl post
    rw [List.eq_nil_of_length_eq_zero (Nat.le_zero.mp hl)]
    simp only [List.map_nil, List.nil_append]
    rw [runLoop_cons, runLoop_cons]
    simp [processChunk]
  | succ k ih =>
    intro pre hl post
    match pre with
    | [] =>
      simp only [List.map_nil, List.nil_append]
      rw [runLoop_cons, runLoop_cons]
      simp [processChunk]
    | p :: ps =>
      rw [List.map_cons, List.cons_append, List.cons_append, runLoop_cons, runLoop_cons]
      by_cases hcase : ps.length < n - 1
      · have htake₁ : (ps.map (Except.ok (ε := ε)) ++ Except.error e :: post).take (n - 1) =
            ps.map Except.ok ++ Except.error e :: post.take (n - 1 - ps.length - 1) := by
          rw [List.take_append_eq_append_take,
            List.take_of_length_le (by simp; omega)]
          obtain ⟨m', hm'⟩ : ∃ m', n - 1 - (ps.map (Except.ok (ε := ε))).length = m' + 1 :=
            ⟨n - 1 - ps.length - 1, by simp; omega⟩
          rw [hm', List.take_succ_cons]
          simp at hm' ⊢
          omega
        have htake₂ : (ps.map (Except.ok (ε := ε)) ++ [Except.error e]).take (n - 1) =
            ps.map Except.ok ++ [Except.error e] := by
          apply List.take_of_length_le
          simp
          omega
        rw [htake₁, htake₂]
        have h₁ : Except.ok p :: (ps.map Except.ok ++ Except.error e :: post.take (n - 1 - ps.length - 1)) =
            (p :: ps).map Except.ok ++ Except.error e :: post.take (n - 1 - ps.length - 1) := by
          simp
        have h₂ : Except.ok p :: (ps.map Except.ok ++ [Except.error e]) =
            (p :: ps).map Except.ok ++ Except.error e :: [] := by
          simp
        rw [h₁, h₂, processChunk_pre_error, processChunk_pre_error]
        simp
      · have hlen : n - 1 ≤ (ps.map (Except.ok (ε := ε))).length := by simp; omega
        have htake : ∀ (t : List (Except ε ρ)),
            (ps.map (Except.ok (ε := ε)) ++ t).take (n - 1) =
              (ps.take (n - 1)).map Except.ok := by
          intro t
          rw [List.take_append_eq_append_take, Nat.sub_eq_zero_of_le hlen]
          simp [List.map_take]
        have hdrop : ∀ (t : List (Except ε ρ)),
            (ps.map (Except.ok (ε := ε)) ++ t).drop (n - 1) =
              (ps.drop (n - 1)).map Except.ok ++ t := by
          intro t
          rw [List.drop_append_eq_append_drop, Nat.sub_eq_zero_of_le hlen]
          simp [List.map_drop]
        rw [htake, htake, hdrop, hdrop]
        have hchunk : Except.ok (ε := ε) p :: (ps.take (n - 1)).map Except.ok =
            (p :: ps.take (n - 1)).map Except.ok := by simp
        rw [hchunk, processChunk_map_ok]
        have hlen' : (ps.drop (n - 1)).length ≤ k := by simp at hl ⊢; omega
        obtain ⟨iheq, ihout⟩ := ih (ps.drop (n - 1)) hlen' post
        simp only []
        rw [iheq]
        exact ⟨rfl, iheq ▸ ihout⟩

theorem runLoop_batches {ε ρ σ β : Type} {n : Nat} (hn : 0 < n) (ap : σ → ρ → σ) (fin : σ → β)
    (init : σ) (onErr : ε → RunResult ε) (results : List (Except ε ρ)) :
    ∀ b ∈ batchesOf (runLoop n ap fin init onErr results).1,
      ∃ recs : List ρ, recs ≠ [] ∧ recs.length ≤ n ∧ b = fin (recs.foldl ap init) := by
  suffices h : ∀ (k : Nat) (results : List (Except ε ρ)), results.length ≤ k →
      ∀ b ∈ batchesOf (runLoop n ap fin init onErr results).1,
        ∃ recs : List ρ, recs ≠ [] ∧ recs.length ≤ n ∧ b = fin (recs.foldl ap init) from
    h results.length results le_rfl
  intro k
  induction k with
  | zero =>
    intro results hl
    rw [List.eq_nil_of_length_eq_zero (Nat.le_zero.mp hl)]
    simp
  | succ k ih =>
    intro results hl
    match results with
    | [] => simp
    | x :: xs =>
      rw [runLoop_cons]
      cases h : processChunk ap init (x :: xs.take (n - 1)) with
      | error e => simp
      | ok s =>
        simp only [batchesOf_write, List.mem_cons]
        intro b hb
        rcases hb with hb | hb
        · obtain ⟨recs, hc, hs⟩ := processChunk_ok_inv ap _ init s h
          refine ⟨recs, ?_, ?_, by rw [hb, hs]⟩
          · intro hrecs
            rw [hrecs] at hc
            simp at hc
          · have : recs.length = (x :: xs.take (n - 1)).length := by rw [hc]; simp
            simp only [List.length_cons] at this
            have := List.length_take_le (n - 1) xs
            omega
        · exact ih (xs.drop (n - 1)) (by simp at hl ⊢; omega) b hb

@[simp] theorem fqLoop_nil {ε : Type} (n : Nat) (b : FqBuilders) (cnt : Int) :
    fqLoop (ε := ε) n b cnt [] = ([SinkEvent.close], RunResult.success) := by
  rw [fqLoop]

theorem fqLoop_cons {ε : Type} (n : Nat) (b : FqBuilders) (cnt : Int)
    (x : Except ε FastqRecord) (xs : List (Except ε FastqRecord)) :
    fqLoop n b cnt (x :: xs) =
      match processChunk fqAppend (b, cnt) (x :: xs.take (n - 1)) with
      | Except.error e => ([], RunResult.error e)
      | Except.ok s =>
        if 0 < s.1.id.length then
          let rest := fqLoop n FqBuilders.empty s.2 (xs.drop (n - 1))
          (SinkEvent.write s.1 :: rest.1, rest.2)
        else
          let rest := fqLoop n s.1 s.2 (xs.drop (n - 1))
          (rest.1, rest.2) := by
  rw [fqLoop]

theorem foldl_inv {ρ σ : Type} (ap : σ → ρ → σ) (Q : σ → Prop)
    (hstep : ∀ s r, Q s → Q (ap s r)) :
    ∀ (recs : List ρ) (s : σ), Q s → Q (recs.foldl ap s) := by
  intro recs
  induction recs with
  | nil => intro s hs; exact hs
  | cons r t ih => intro s hs; exact ih (ap s r) (hstep s r hs)

theorem fqLoop_map_ok {ε : Type} (n : Nat) (cnt : Int) (records : List FastqRecord) :
    fqLoop (ε := ε) n FqBuilders.empty cnt (records.map Except.ok) =
      ((fqBatches cnt (chunkList n records)).map SinkEvent.write ++ [SinkEvent.close],
       RunResult.success) := by
  suffices h : ∀ (k : Nat) (records : List FastqRecord) (cnt : Int), records.length ≤ k →
      fqLoop (ε := ε) n FqBuilders.empty cnt (records.map Except.ok) =
        ((fqBatches cnt (chunkList n records)).map SinkEvent.write ++ [SinkEvent.close],
         RunResult.success) from h records.length records cnt le_rfl
  intro k
  induction k with
  | zero =>
    intro records cnt hl
    rw [List.eq_nil_of_length_eq_zero (Nat.le_zero.mp hl)]
    simp [fqBatches]
  | succ k ih =>
    intro records cnt hl
    match records with
    | [] => simp [fqBatches]
    | r :: rs =>
      rw [List.map_cons, fqLoop_cons]
      have hchunk : Except.ok (ε := ε) r :: (rs.map Except.ok).take (n - 1) =
          (r :: rs.take (n - 1)).map Except.ok := by
        rw [List.map_cons, List.map_take]
      rw [hchunk, processChunk_map_ok, foldl_fqAppend]
      have hguard : 0 < ((fqOfChunk (FqBuilders.empty, cnt) (r :: rs.take (n - 1))).1).id.length := by
        simp [fqOfChunk, FqBuilders.empty]
      dsimp only
      rw [if_pos hguard]
      have hdrop : (rs.map (Except.ok (ε := ε))).drop (n - 1) =
          (rs.drop (n - 1)).map Except.ok := by
        rw [List.map_drop]
      simp only [hdrop]
      rw [ih (rs.drop (n - 1)) _ (by simp at hl ⊢; omega)]
      rw [chunkList_cons, fqBatches]
      simp [fqOfChunk]

theorem fqLoop_error {ε : Type} (n : Nat) (b : FqBuilders) (cnt : Int)
    (pre : List FastqRecord) (e : ε) (post : List (Except ε FastqRecord)) :
    fqLoop n b cnt (pre.map Except.ok ++ Except.error e :: post) =
      fqLoop n b cnt (pre.map Except.ok ++ [Except.error e]) ∧
    (fqLoop n b cnt (pre.map Except.ok ++ Except.error e :: post)).2 = RunResult.error e := by
  suffices h : ∀ (k : Nat) (pre : List FastqRecord), pre.length ≤ k →
      ∀ (b : FqBuilders) (cnt : Int) (post : List (Except ε FastqRecord)),
      fqLoop n b cnt (pre.map Except.ok ++ Except.error e :: post) =
        fqLoop n b cnt (pre.map Except.ok ++ [Except.error e]) ∧
      (fqLoop n b cnt (pre.map Except.ok ++ Except.error e :: post)).2 = RunResult.error e from
    h pre.length pre le_rfl b cnt post
  intro k
  induction k with
  | zero =>
    intro pre hl b cnt post
    rw [List.eq_nil_of_length_eq_zero (Nat.le_zero.mp hl)]
    simp only [List.map_nil, List.nil_append]
    rw [fqLoop_cons, fqLoop_cons]
    simp [processChunk]
  | succ k ih =>
    intro pre hl b cnt post
    match pre with
    | [] =>
      simp only [List.map_nil, List.nil_append]
      rw [fqLoop_cons, fqLoop_cons]
      simp [processChunk]
    | p :: ps =>
      rw [List.map_cons, List.cons_append, List.cons_append, fqLoop_cons, fqLoop_cons]
      by_cases hcase : ps.length < n - 1
      · have htake₁ : (ps.map (Except.ok (ε := ε)) ++ Except.error e :: post).take (n - 1) =
            ps.map Except.ok ++ Except.error e :: post.take (n - 1 - ps.length - 1) := by
          rw [List.take_append_eq_append_take,
            List.take_of_length_le (by simp; omega)]
          obtain ⟨m', hm'⟩ : ∃ m', n - 1 - (ps.map (Except.ok (ε := ε))).length = m' + 1 :=
            ⟨n - 1 - ps.length - 1, by simp; omega⟩
          rw [hm', List.take_succ_cons]
          simp at hm' ⊢
          omega
        have htake₂ : (ps.map (Except.ok (ε := ε)) ++ [Except.error e]).take (n - 1) =
            ps.map Except.ok ++ [Except.error e] := by
          apply List.take_of_length_le
          simp
          omega
        rw [htake₁, htake₂]
        have h₁ : Except.ok p :: (ps.map Except.ok ++ Except.error e :: post.take (n - 1 - ps.length - 1)) =
            (p :: ps).map Except.ok ++ Except.error e :: post.take (n - 1 - ps.length - 1) := by
          simp
        have h₂ : Except.ok p :: (ps.map Except.ok ++ [Except.error e]) =
            (p :: ps).map Except.ok ++ Except.error e :: [] := by
          simp
        rw [h₁, h₂, processChunk_pre_error, processChunk_pre_error]
        simp
      · have hlen : n - 1 ≤ (ps.map (Except.ok (ε := ε))).length := by simp; omega
        have htake : ∀ (t : List (Except ε FastqRecord)),
            (ps.map (Except.ok (ε := ε)) ++ t).take (n - 1) =
              (ps.take (n - 1)).map Except.ok := by
          intro t
          rw [List.take_append_eq_append_take, Nat.sub_eq_zero_of_le hlen]
          simp [List.map_take]
        have hdrop : ∀ (t : List (Except ε FastqRecord)),
            (ps.map (Except.ok (ε := ε)) ++ t).drop (n - 1) =
              (ps.drop (n - 1)).map Except.ok ++ t := by
          intro t
          rw [List.drop_append_eq_append_drop, Nat.sub_eq_zero_of_le hlen]
          simp [List.map_drop]
        rw [htake, htake, hdrop, hdrop]
        have hchunk : Except.ok (ε := ε) p :: (ps.take (n - 1)).map Except.ok =
            (p :: ps.take (n - 1)).map Except.ok := by simp
        rw [hchunk, processChunk_map_ok]
        dsimp only
        have hlen' : (ps.drop (n - 1)).length ≤ k := by simp at hl ⊢; omega
        set s := (p :: ps.take (n - 1)).foldl fqAppend (b, cnt) with hs
        by_cases hguard : 0 < s.1.id.length
        · rw [if_pos hguard, if_pos hguard]
          obtain ⟨iheq, ihout⟩ := ih (ps.drop (n - 1)) hlen' FqBuilders.empty s.2 post
          simp only []
          rw [iheq]
          exact ⟨rfl, iheq ▸ ihout⟩
        · rw [if_neg hguard, if_neg hguard]
          obtain ⟨iheq, ihout⟩ := ih (ps.drop (n - 1)) hlen' s.1 s.2 post
          simp only []
          rw [iheq]
          exact ⟨rfl, iheq ▸ ihout⟩

theorem fqLoop_inv {ε : Type} (n : Nat) (P : FqBuilders → Prop)
    (hstep : ∀ (s : FqBuilders × Int) (r : FastqRecord), P s.1 → P (fqAppend s r).1)
    (hempty : P FqBuilders.empty) (results : List (Except ε FastqRecord))
    (b0 : FqBuilders) (cnt : Int) (hb0 : P b0) :
    ∀ bt ∈ batchesOf (fqLoop n b0 cnt results).1, P bt ∧ 0 < bt.id.length := by
  suffices h : ∀ (k : Nat) (results : List (Except ε FastqRecord)) (b0 : FqBuilders)
      (cnt : Int), results.length ≤ k → P b0 →
      ∀ bt ∈ batchesOf (fqLoop n b0 cnt results).1, P bt ∧ 0 < bt.id.length from
    h results.length results b0 cnt le_rfl hb0
  intro k
  induction k with
  | zero =>
    intro results b0 cnt hl _
    rw [List.eq_nil_of_length_eq_zero (Nat.le_zero.mp hl)]
    simp
  | succ k ih =>
    intro results b0 cnt hl hb0
    match results with
    | [] => simp
    | x :: xs =>
      rw [fqLoop_cons]
      cases h : processChunk fqAppend (b0, cnt) (x :: xs.take (n - 1)) with
      | error e => simp
      | ok s =>
        have hPs : P s.1 := by
          obtain ⟨recs, _, hfold⟩ := processChunk_ok_inv fqAppend _ (b0, cnt) s h
          rw [hfold]
          exact foldl_inv fqAppend (fun st => P st.1) hstep recs (b0, cnt) hb0
        dsimp only
        by_cases hguard : 0 < s.1.id.length
        · rw [if_pos hguard]
          simp only [batchesOf_write, List.mem_cons]
          intro bt hbt
          rcases hbt with hbt | hbt
          · exact hbt ▸ ⟨hPs, hguard⟩
          · exact ih (xs.drop (n - 1)) FqBuilders.empty s.2 (by simp at hl ⊢; omega) hempty bt hbt
        · rw [if_neg hguard]
          simp only []
          intro bt hbt
          exact ih (xs.drop (n - 1)) s.1 s.2 (by simp at hl ⊢; omega) hPs bt hbt

theorem streamStep_foldl_lt {ρ β : Type} {n : Nat} (hn : 0 < n) (mk : List ρ → β) :
    ∀ (l : List ρ) (s : List ρ × List β), s.1.length < n →
      ((l.foldl (streamStep n mk) s).1).length < n := by
  intro l
  induction l with
  | nil => intro s hs; exact hs
  | cons r t ih =>
    intro s hs
    rw [List.foldl_cons]
    apply ih
    by_cases h : (s.1 ++ [r]).length = n
    · simp [streamStep, h, hn]
    · simp only [streamStep, if_neg h]
      simp at h ⊢
      omega

theorem streamStep_foldl_small {ρ β : Type} {n : Nat} (mk : List ρ → β) :
    ∀ (l : List ρ) (s : List ρ × List β), s.1.length + l.length < n →
      l.foldl (streamStep n mk) s = (s.1 ++ l, s.2) := by
  intro l
  induction l with
  | nil => intro s _; simp
  | cons r t ih =>
    intro s hs
    rw [List.foldl_cons]
    have hne : (s.1 ++ [r]).length ≠ n := by simp at hs ⊢; omega
    simp only [streamStep, if_neg hne]
    rw [ih (s.1 ++ [r], s.2) (by simp at hs ⊢; omega)]
    simp

theorem streamStep_foldl_flush {ρ β : Type} {n : Nat} (mk : List ρ → β) :
    ∀ (l : List ρ) (s : List ρ × List β), l ≠ [] → s.1.length + l.length = n →
      l.foldl (streamStep n mk) s = ([], s.2 ++ [mk (s.1 ++ l)]) := by
  intro l
  induction l with
  | nil => intro s hne _; exact absurd rfl hne
  | cons r t ih =>
    intro s _ hs
    rw [List.foldl_cons]
    match t with
    | [] =>
      have hlen : (s.1 ++ [r]).length = n := by simp at hs ⊢; omega
      simp [streamStep, hlen]
    | u :: us =>
      have hne : (s.1 ++ [r]).length ≠ n := by simp at hs ⊢; omega
      simp only [streamStep, if_neg hne]
      rw [ih (s.1 ++ [r], s.2) (by simp) (by simp at hs ⊢; omega)]
      simp

theorem streamRun_eq_chunkList {ρ β : Type} {n : Nat} (hn : 0 < n) (mk : List ρ → β)
    (records : List ρ) : streamRun n mk records = (chunkList n records).map mk := by
  suffices h : ∀ (k : Nat) (l : List ρ) (w : List β), l.length ≤ k →
      (let fin := l.foldl (streamStep n mk) ([], w)
       if fin.1.isEmpty then fin.2 else fin.2 ++ [mk fin.1]) =
        w ++ (chunkList n l).map mk by
    have := h records.length records [] le_rfl
    simpa [streamRun] using this
  intro k
  induction k with
  | zero =>
    intro l w hl
    rw [List.eq_nil_of_length_eq_zero (Nat.le_zero.mp hl)]
    simp
  | succ k ih =>
    intro l w hl
    by_cases hnil : l = []
    · rw [hnil]; simp
    · by_cases hsmall : l.length < n
      · rw [streamStep_foldl_small mk l ([], w) (by simpa using hsmall)]
        have : (([] : List ρ) ++ l).isEmpty = false := by
          simp [List.isEmpty_iff, hnil]
        simp only [this]
        rw [chunkList_small hnil (by omega)]
        simp
      · have hsplit : l = l.take n ++ l.drop n := (List.take_append_drop n l).symm
        have htk : (l.take n).length = n := by
          rw [List.length_take]
          omega
        conv_lhs => rw [hsplit]
        rw [List.foldl_append]
        rw [streamStep_foldl_flush mk (l.take n) ([], w)
          (by intro hcon; rw [hcon] at htk; simp at htk; omega) (by simpa using htk)]
        have ihres := ih (l.drop n) (w ++ [mk ([] ++ l.take n)]) (by simp at hl ⊢; omega)
        simp only [] at ihres ⊢
        rw [ihres]
        conv_rhs => rw [hsplit]
        rw [chunkList_append hn _ htk]
        simp

theorem fqBatches_mem : ∀ (cs : List (List FastqRecord)) (cnt : Int) (bt : FqBuilders),
    bt ∈ fqBatches cnt cs → ∃ c m, c ∈ cs ∧ bt = (fqOfChunk (FqBuilders.empty, m) c).1 := by
  intro cs
  induction cs with
  | nil => intro cnt bt h; simp [fqBatches] at h
  | cons c cs ih =>
    intro cnt bt h
    rw [fqBatches, List.mem_cons] at h
    rcases h with h | h
    · exact ⟨c, cnt, by simp, h⟩
    · obtain ⟨c', m, hmem, hbt⟩ := ih _ bt h
      exact ⟨c', m, by simp [hmem], hbt⟩

theorem except_decomp {ε ρ : Type} : ∀ (results : List (Except ε ρ)),
    (∃ recs : List ρ, results = recs.map Except.ok) ∨
    ∃ (pre : List ρ) (e : ε) (post : List (Except ε ρ)),
      results = pre.map Except.ok ++ Except.error e :: post := by
  intro results
  induction results with
  | nil => exact Or.inl ⟨[], rfl⟩
  | cons x t ih =>
    cases x with
    | error e => exact Or.inr ⟨[], e, t, rfl⟩
    | ok r =>
      rcases ih with ⟨recs, hrecs⟩ | ⟨pre, e, post, hpre⟩
      · exact Or.inl ⟨r :: recs, by simp [hrecs]⟩
      · exact Or.inr ⟨r :: pre, e, post, by simp [hpre]⟩

theorem splitSizes_flatten {α : Type} : ∀ (L : List (List α)),
    splitSizes (L.map List.length) L.flatten = L := by
  intro L
  induction L with
  | nil => rfl
  | cons c cs ih =>
    simp only [List.map_cons, List.flatten_cons, splitSizes]
    rw [List.take_left, List.drop_left, ih]

theorem zip_flatten_map {π γ δ : Type} (f : π → γ) (g : π → δ) : ∀ (L : List (List π)),
    ((L.map (List.map f)).flatten).zip ((L.map (List.map g)).flatten) =
      (L.map (fun l => l.map (fun p => (f p, g p)))).flatten := by
  intro L
  induction L with
  | nil => rfl
  | cons c cs ih =>
    simp only [List.map_cons, List.flatten_cons]
    rw [List.zip_append (by simp), ih, List.zip_map']

theorem flatten_map_map {α γ : Type} (f : α → γ) : ∀ (L : List (List α)),
    (L.map (fun c => c.map f)).flatten = L.flatten.map f := by
  intro L
  induction L with
  | nil => rfl
  | cons c cs ih => simp only [List.map_cons, List.flatten_cons, List.map_append, ih]

theorem sum_map_length {α : Type} : ∀ (L : List (List α)),
    (L.map List.length).sum = L.flatten.length := by
  intro L
  induction L with
  | nil => rfl
  | cons c cs ih => simp only [List.map_cons, List.sum_cons, List.flatten_cons,
      List.length_append, ih]

theorem chunk_size_pos : 0 < chunk_size := by
  norm_num [chunk_size]

/-- `gff2pq` on an input whose records all decode: one batch per chunk, in
chunk order, then a single close; the run succeeds. -/
theorem gff2pq_map_ok {ε : Type} (records : List GffRecord) :
    gff2pq (ε := ε) (records.map Except.ok) =
      ((chunkList chunk_size records).map
        (fun c => SinkEvent.write (gffOfChunk GffBuilders.empty c)) ++ [SinkEvent.close],
       RunResult.success) := by
  rw [gff2pq, runLoop_map_ok]
  congr 2
  apply List.map_congr_left
  intro c _
  rw [foldl_gffAppend]

/-- `write_records_to_file` on an input whose records all decode. -/
theorem write_records_to_file_map_ok {ε : Type} (records : List FastaRecord) :
    write_records_to_file (ε := ε) (records.map Except.ok) =
      ((chunkList chunk_size records).map
        (fun c => SinkEvent.write (faOfChunk FastaBuilders.empty c)) ++ [SinkEvent.close],
       RunResult.success) := by
  rw [write_records_to_file, runLoop_map_ok]
  congr 2
  apply List.map_congr_left
  intro c _
  rw [foldl_faAppend]

/-- `fq2pq` on an input whose records all decode: one batch per chunk with
the `read_number` counter threaded across chunks, then a single close. -/
theorem fq2pq_map_ok {ε : Type} (records : List FastqRecord) :
    fq2pq (ε := ε) (records.map Except.ok) =
      ((fqBatches 0 (chunkList chunk_size records)).map SinkEvent.write ++ [SinkEvent.close],
       RunResult.success) := by
  rw [fq2pq, fqLoop_map_ok]

/-- A sample GFF record with all optional fields present. -/
def gffSample : GffRecord :=
  ⟨"chr1", "refseq", "gene", 1, 100, some 5, "+", some "0", [("ID", "g1"), ("Name", "x")]⟩

/-- A sample GFF record whose optional fields are absent: `score` and
`frame` are `none`, and the `source` field carries the GFF placeholder
string `"."` that the format uses for an absent source — the normalized
record has no way to mark the source as absent. -/
def gffDot : GffRecord :=
  ⟨"chr1", ".", "gene", 1, 100, none, "+", none, [("ID", "g1")]⟩

/-- A sample FASTA record without a description. -/
def faSample : FastaRecord := ⟨"s1", none, "ACGT"⟩

/-- A sample FASTQ record without a description. -/
def fqSample : FastqRecord := ⟨"q1", "ACGT", none, "IIII"⟩

theorem fqBatches_sizes : ∀ (cs : List (List FastqRecord)) (cnt : Int),
    (fqBatches cnt cs).map FqBuilders.numRows = cs.map List.length := by
  intro cs
  induction cs with
  | nil => intro cnt; rfl
  | cons c cs ih =>
    intro cnt
    rw [fqBatches]
    simp only [List.map_cons]
    rw [ih]
    simp [fqOfChunk, FqBuilders.numRows, FqBuilders.empty]

theorem fqBatches_id_flatten : ∀ (cs : List (List FastqRecord)) (cnt : Int),
    ((fqBatches cnt cs).map (fun b => b.id)).flatten =
      cs.flatten.map (fun r => some r.id) := by
  intro cs
  induction cs with
  | nil => intro cnt; rfl
  | cons c cs ih =>
    intro cnt
    rw [fqBatches]
    simp only [List.map_cons, List.flatten_cons, List.map_append]
    rw [ih]
    simp [fqOfChunk, FqBuilders.empty]

theorem fqBatches_desc_flatten : ∀ (cs : List (List FastqRecord)) (cnt : Int),
    ((fqBatches cnt cs).map (fun b => b.description)).flatten =
      cs.flatten.map (fun r => r.description) := by
  intro cs
  induction cs with
  | nil => intro cnt; rfl
  | cons c cs ih =>
    intro cnt
    rw [fqBatches]
    simp only [List.map_cons, List.flatten_cons, List.map_append]
    rw [ih]
    simp [fqOfChunk, FqBuilders.empty]

theorem fqBatches_number_flatten : ∀ (cs : List (List FastqRecord)) (cnt : Int),
    ((fqBatches cnt cs).map (fun b => b.number)).flatten =
      (List.range cs.flatten.length).map (fun i : Nat => some (cnt + (i : Int))) := by
  intro cs
  induction cs with
  | nil => intro cnt; rfl
  | cons c cs ih =>
    intro cnt
    rw [fqBatches]
    simp only [List.map_cons, List.flatten_cons, List.length_append]
    rw [ih, List.range_add, List.map_append, List.map_map]
    have h1 : (fqOfChunk (FqBuilders.empty, cnt) c).1.number =
        (List.range c.length).map (fun i : Nat => some (cnt + (i : Int))) := by
      simp [fqOfChunk, FqBuilders.empty]
    rw [h1]
    congr 1
    apply List.map_congr_left
    intro i _
    simp only [Function.comp_apply]
    congr 1
    push_cast
    ring

theorem gff2pq_single (r : GffRecord) :
    gff2pq (ε := String) [Except.ok r] =
      ([SinkEvent.write (gffOfChunk GffBuilders.empty [r]), SinkEvent.close],
       RunResult.success) := by
  have h := gff2pq_map_ok (ε := String) [r]
  rw [show (List.map Except.ok [r] : List (Except String GffRecord)) =
    [Except.ok r] from rfl] at h
  rw [h, chunkList_cons]
  simp

theorem write_records_to_file_single (r : FastaRecord) :
    write_records_to_file (ε := String) [Except.ok r] =
      ([SinkEvent.write (faOfChunk FastaBuilders.empty [r]), SinkEvent.close],
       RunResult.success) := by
  have h := write_records_to_file_map_ok (ε := String) [r]
  rw [show (List.map Except.ok [r] : List (Except String FastaRecord)) =
    [Except.ok r] from rfl] at h
  rw [h, chunkList_cons]
  simp

theorem fq2pq_single (r : FastqRecord) :
    fq2pq (ε := String) [Except.ok r] =
      ([SinkEvent.write (fqOfChunk (FqBuilders.empty, 0) [r]).1, SinkEvent.close],
       RunResult.success) := by
  have h := fq2pq_map_ok (ε := String) [r]
  rw [show (List.map Except.ok [r] : List (Except String FastqRecord)) =
    [Except.ok r] from rfl] at h
  rw [h, chunkList_cons]
  simp [fqBatches]

/-- C10: in every batch emitted by `gff2pq`, the `source` column and the
attribute map's values child contain no nulls, even though both are
declared nullable in the schema — for every record the code calls
`append_value` (never `append_null`) on the source builder and on the map
value sub-builder. -/
theorem claim_C10_no_nulls_in_source_and_map_values {ε : Type}
    (results : List (Except ε GffRecord)) (b : GffBuilders)
    (hb : b ∈ batchesOf (gff2pq results).1) :
    (∀ cell ∈ b.source, cell.isSome) ∧ (∀ cell ∈ b.«attribute».values, cell.isSome) := by
  obtain ⟨recs, -, -, hfold⟩ :=
    runLoop_batches chunk_size_pos gffAppend (fun b => b) GffBuilders.empty
      RunResult.error results b hb
  rw [hfold, foldl_gffAppend]
  constructor
  · intro cell hcell
    simp only [gffOfChunk, GffBuilders.empty, List.nil_append, List.mem_map] at hcell
    obtain ⟨r, -, hcell⟩ := hcell
    rw [← hcell]
    rfl
  · intro cell hcell
    simp only [gffOfChunk, GffBuilders.empty, List.nil_append, List.mem_flatten,
      List.mem_map] at hcell
    obtain ⟨l, ⟨r, -, hl⟩, hcell⟩ := hcell
    rw [← hl] at hcell
    simp only [List.mem_map] at hcell
    obtain ⟨kv, -, hcell⟩ := hcell
    rw [← hcell]
    rfl

theorem claim_C10_witness :
    (∀ cell ∈ (gffOfChunk GffBuilders.empty [gffSample]).source, cell.isSome) ∧
    (∀ cell ∈ (gffOfChunk GffBuilders.empty [gffSample]).«attribute».values, cell.isSome) :=
  claim_C10_no_nulls_in_source_and_map_values (ε := String) [Except.ok gffSample]
    (gffOfChunk GffBuilders.empty [gffSample])
    (by rw [gff2pq_single]; simp)

/-- C3 counterexample: the claim also lists the GFF `source` field among
the optional fields that produce a null when absent, but `gff2pq` appends
`source` with `append_value` unconditionally.  For a record whose source is
absent (carried as the GFF placeholder string `"."`), the `source` column
holds the non-null placeholder value `some "."`, not a null. -/
theorem claim_C3_counterexample :
    batchesOf (gff2pq (ε := String) [Except.ok gffDot]).1 =
      [gffOfChunk GffBuilders.empty [gffDot]] ∧
    (gffOfChunk GffBuilders.empty [gffDot]).source = [some "."] ∧
    ([some "."] : List (Option String)) ≠ [none] := by
  refine ⟨?_, by decide, by decide⟩
  rw [gff2pq_single]
  simp

@[simp] theorem batchesOf_map_write_comp {β γ : Type} (g : γ → β) (l : List γ) :
    batchesOf (l.map (fun c => SinkEvent.write (g c))) = l.map g := by
  induction l with
  | nil => rfl
  | cons c cs ih => simp [ih]

theorem gff_col_flatten {ε δ : Type} (records : List GffRecord)
    (col : GffBuilders → List δ) (f : GffRecord → δ)
    (h : ∀ c, col (gffOfChunk GffBuilders.empty c) = c.map f) :
    ((batchesOf (gff2pq (ε := ε) (records.map Except.ok)).1).map col).flatten =
      records.map f := by
  rw [gff2pq_map_ok]
  simp only [batchesOf_append, batchesOf_close, batchesOf_nil, List.append_nil,
    batchesOf_map_write_comp, List.map_map]
  have h2 : (chunkList chunk_size records).map (col ∘ gffOfChunk GffBuilders.empty) =
      (chunkList chunk_size records).map (fun c => c.map f) :=
    List.map_congr_left (fun c _ => h c)
  rw [h2, flatten_map_map, chunkList_flatten]

theorem fa_col_flatten {ε δ : Type} (records : List FastaRecord)
    (col : FastaBuilders → List δ) (f : FastaRecord → δ)
    (h : ∀ c, col (faOfChunk FastaBuilders.empty c) = c.map f) :
    ((batchesOf (write_records_to_file (ε := ε) (records.map Except.ok)).1).map col).flatten =
      records.map f := by
  rw [write_records_to_file_map_ok]
  simp only [batchesOf_append, batchesOf_close, batchesOf_nil, List.append_nil,
    batchesOf_map_write_comp, List.map_map]
  have h2 : (chunkList chunk_size records).map (col ∘ faOfChunk FastaBuilders.empty) =
      (chunkList chunk_size records).map (fun c => c.map f) :=
    List.map_congr_left (fun c _ => h c)
  rw [h2, flatten_map_map, chunkList_flatten]

/-- C3 (amended): a record whose optional field is absent produces an
explicit null at that row for the FASTA/FASTQ `description` column and the
GFF `score` and `frame` columns; the GFF `source` column, by contrast,
always receives a value (never a null), so an absent source arrives as
whatever placeholder string the parser supplies. -/
theorem claim_C3_nullability_of_optional_fields (ε : Type) :
    (∀ records : List GffRecord,
      ((batchesOf (gff2pq (ε := ε) (records.map Except.ok)).1).map
        (fun b => b.frame)).flatten = records.map (fun r => r.frame) ∧
      ((batchesOf (gff2pq (ε := ε) (records.map Except.ok)).1).map
        (fun b => b.score)).flatten = records.map (fun r => r.score) ∧
      ((batchesOf (gff2pq (ε := ε) (records.map Except.ok)).1).map
        (fun b => b.source)).flatten = records.map (fun r => some r.source)) ∧
    (∀ records : List FastaRecord,
      ((batchesOf (write_records_to_file (ε := ε) (records.map Except.ok)).1).map
        (fun b => b.description)).flatten = records.map (fun r => r.description)) ∧
    (∀ records : List FastqRecord,
      ((batchesOf (fq2pq (ε := ε) (records.map Except.ok)).1).map
        (fun b => b.description)).flatten = records.map (fun r => r.description)) := by
  refine ⟨fun records => ⟨?_, ?_, ?_⟩, fun records => ?_, fun records => ?_⟩
  · exact gff_col_flatten records _ _ (fun c => by simp [gffOfChunk, GffBuilders.empty])
  · exact gff_col_flatten records _ _ (fun c => by simp [gffOfChunk, GffBuilders.empty])
  · exact gff_col_flatten records _ _ (fun c => by simp [gffOfChunk, GffBuilders.empty])
  · exact fa_col_flatten records _ _ (fun c => by simp [faOfChunk, FastaBuilders.empty])
  · rw [fq2pq_map_ok]
    simp only [batchesOf_append, batchesOf_map_write, batchesOf_close, batchesOf_nil,
      List.append_nil]
    rw [fqBatches_desc_flatten, chunkList_flatten]

/-- C2 counterexample: the claim says every conversion, including `fa2pq`
via `write_records_to_file`, returns the parse error to the caller; but on
a malformed record `write_records_to_file` executes
`Err(error) => panic!("{}", error)` — it panics instead of returning the
error, so the caller never receives an `Err` value. -/
theorem claim_C2_counterexample :
    (write_records_to_file (ε := String) [Except.error "bad"]).2 =
      RunResult.panicked "bad" ∧
    (write_records_to_file (ε := String) [Except.error "bad"]).2 ≠
      RunResult.error "bad" := by
  have h := (runLoop_error chunk_size faAppend (fun b => b) FastaBuilders.empty
    RunResult.panicked [] "bad" []).2
  simp only [List.map_nil, List.nil_append] at h
  rw [write_records_to_file]
  rw [h]
  simp

/-- C2 (amended): on a decode stream that is well-formed up to a parse
error, `gff2pq` and `fq2pq` return that parse error unchanged and
`write_records_to_file` (hence `fa2pq`) panics with that parse error
instead of returning it; in all three conversions the run is identical to
the run on the stream truncated at the failure point, i.e. no decode
result after the failure is processed. -/
theorem claim_C2_fail_fast_on_parse_error :
    (∀ (ε : Type) (pre : List GffRecord) (e : ε) (post : List (Except ε GffRecord)),
      gff2pq (pre.map Except.ok ++ Except.error e :: post) =
        gff2pq (pre.map Except.ok ++ [Except.error e]) ∧
      (gff2pq (pre.map Except.ok ++ Except.error e :: post)).2 = RunResult.error e) ∧
    (∀ (ε : Type) (pre : List FastqRecord) (e : ε) (post : List (Except ε FastqRecord)),
      fq2pq (pre.map Except.ok ++ Except.error e :: post) =
        fq2pq (pre.map Except.ok ++ [Except.error e]) ∧
      (fq2pq (pre.map Except.ok ++ Except.error e :: post)).2 = RunResult.error e) ∧
    (∀ (ε : Type) (pre : List FastaRecord) (e : ε) (post : List (Except ε FastaRecord)),
      write_records_to_file (pre.map Except.ok ++ Except.error e :: post) =
        write_records_to_file (pre.map Except.ok ++ [Except.error e]) ∧
      (write_records_to_file (pre.map Except.ok ++ Except.error e :: post)).2 =
        RunResult.panicked e) := by
  refine ⟨fun ε pre e post => ?_, fun ε pre e post => ?_, fun ε pre e post => ?_⟩
  · exact runLoop_error chunk_size gffAppend (fun b => b) GffBuilders.empty
      RunResult.error pre e post
  · exact fqLoop_error chunk_size FqBuilders.empty 0 pre e post
  · exact runLoop_error chunk_size faAppend (fun b => b) FastaBuilders.empty
      RunResult.panicked pre e post

theorem gffOfChunk_colLengths (c : List GffRecord) :
    (gffOfChunk GffBuilders.empty c).colLengths = List.replicate 9 c.length := by
  simp [gffOfChunk, GffBuilders.empty, GffBuilders.colLengths, List.replicate]

theorem gffOfChunk_numRows (c : List GffRecord) :
    (gffOfChunk GffBuilders.empty c).numRows = c.length := by
  simp [gffOfChunk, GffBuilders.empty, GffBuilders.numRows]

theorem faOfChunk_colLengths (c : List FastaRecord) :
    (faOfChunk FastaBuilders.empty c).colLengths = List.replicate 3 c.length := by
  simp [faOfChunk, FastaBuilders.empty, FastaBuilders.colLengths, List.replicate]

theorem faOfChunk_numRows (c : List FastaRecord) :
    (faOfChunk FastaBuilders.empty c).numRows = c.length := by
  simp [faOfChunk, FastaBuilders.empty, FastaBuilders.numRows]

theorem fqAppend_parity (s : FqBuilders × Int) (r : FastqRecord)
    (h : s.1.colLengths = List.replicate 5 s.1.numRows) :
    (fqAppend s r).1.colLengths = List.replicate 5 (fqAppend s r).1.numRows := by
  obtain ⟨⟨i, sq, d, q, nu⟩, cnt⟩ := s
  simp [fqAppend, optAppend_eq, FqBuilders.colLengths, FqBuilders.numRows,
    List.replicate] at h ⊢
  omega

theorem gff2pq_success_sum {ε : Type} (results : List (Except ε GffRecord))
    (h : (gff2pq results).2 = RunResult.success) :
    ((batchesOf (gff2pq results).1).map GffBuilders.numRows).sum = results.length := by
  rcases except_decomp results with ⟨recs, rfl⟩ | ⟨pre, e, post, rfl⟩
  · rw [gff2pq_map_ok]
    simp only [batchesOf_append, batchesOf_map_write_comp, batchesOf_close,
      batchesOf_nil, List.append_nil, List.map_map]
    have h2 : (chunkList chunk_size recs).map
        (GffBuilders.numRows ∘ gffOfChunk GffBuilders.empty) =
        (chunkList chunk_size recs).map List.length :=
      List.map_congr_left (fun c _ => gffOfChunk_numRows c)
    rw [h2, sum_map_length, chunkList_flatten, List.length_map]
  · have h2 := (runLoop_error chunk_size gffAppend (fun b => b) GffBuilders.empty
      RunResult.error pre e post).2
    rw [gff2pq] at h
    rw [h] at h2
    simp at h2

theorem write_records_to_file_success_sum {ε : Type} (results : List (Except ε FastaRecord))
    (h : (write_records_to_file results).2 = RunResult.success) :
    ((batchesOf (write_records_to_file results).1).map FastaBuilders.numRows).sum =
      results.length := by
  rcases except_decomp results with ⟨recs, rfl⟩ | ⟨pre, e, post, rfl⟩
  · rw [write_records_to_file_map_ok]
    simp only [batchesOf_append, batchesOf_map_write_comp, batchesOf_close,
      batchesOf_nil, List.append_nil, List.map_map]
    have h2 : (chunkList chunk_size recs).map
        (FastaBuilders.numRows ∘ faOfChunk FastaBuilders.empty) =
        (chunkList chunk_size recs).map List.length :=
      List.map_congr_left (fun c _ => faOfChunk_numRows c)
    rw [h2, sum_map_length, chunkList_flatten, List.length_map]
  · have h2 := (runLoop_error chunk_size faAppend (fun b => b) FastaBuilders.empty
      RunResult.panicked pre e post).2
    rw [write_records_to_file] at h
    rw [h] at h2
    simp at h2

theorem fq2pq_success_sum {ε : Type} (results : List (Except ε FastqRecord))
    (h : (fq2pq results).2 = RunResult.success) :
    ((batchesOf (fq2pq results).1).map FqBuilders.numRows).sum = results.length := by
  rcases except_decomp results with ⟨recs, rfl⟩ | ⟨pre, e, post, rfl⟩
  · rw [fq2pq_map_ok]
    simp only [batchesOf_append, batchesOf_map_write, batchesOf_close,
      batchesOf_nil, List.append_nil]
    rw [fqBatches_sizes, sum_map_length, chunkList_flatten, List.length_map]
  · have h2 := (fqLoop_error chunk_size FqBuilders.empty 0 pre e post).2
    rw [fq2pq] at h
    rw [h] at h2
    simp at h2

/-- C1: in every batch emitted by any of the three conversions all column
arrays have the same length (each record contributes exactly one append,
value or null, to every column builder), and for a conversion that returns
success the row counts of the emitted batches sum to the number of
successfully decoded input records (on success, every input record). -/
theorem claim_C1_row_count_parity :
    (∀ (ε : Type) (results : List (Except ε GffRecord)),
      ∀ b ∈ batchesOf (gff2pq results).1,
        b.colLengths = List.replicate 9 b.numRows) ∧
    (∀ (ε : Type) (results : List (Except ε GffRecord)),
      (gff2pq results).2 = RunResult.success →
        ((batchesOf (gff2pq results).1).map GffBuilders.numRows).sum = results.length) ∧
    (∀ (ε : Type) (results : List (Except ε FastaRecord)),
      ∀ b ∈ batchesOf (write_records_to_file results).1,
        b.colLengths = List.replicate 3 b.numRows) ∧
    (∀ (ε : Type) (results : List (Except ε FastaRecord)),
      (write_records_to_file results).2 = RunResult.success →
        ((batchesOf (write_records_to_file results).1).map FastaBuilders.numRows).sum =
          results.length) ∧
    (∀ (ε : Type) (results : List (Except ε FastqRecord)),
      ∀ b ∈ batchesOf (fq2pq results).1,
        b.colLengths = List.replicate 5 b.numRows) ∧
    (∀ (ε : Type) (results : List (Except ε FastqRecord)),
      (fq2pq results).2 = RunResult.success →
        ((batchesOf (fq2pq results).1).map FqBuilders.numRows).sum = results.length) := by
  refine ⟨?_, fun ε results h => gff2pq_success_sum results h, ?_,
    fun ε results h => write_records_to_file_success_sum results h, ?_,
    fun ε results h => fq2pq_success_sum results h⟩
  · intro ε results b hb
    obtain ⟨recs, -, -, hfold⟩ :=
      runLoop_batches chunk_size_pos gffAppend (fun b => b) GffBuilders.empty
        RunResult.error results b hb
    rw [hfold, foldl_gffAppend, gffOfChunk_colLengths, gffOfChunk_numRows]
  · intro ε results b hb
    obtain ⟨recs, -, -, hfold⟩ :=
      runLoop_batches chunk_size_pos faAppend (fun b => b) FastaBuilders.empty
        RunResult.panicked results b hb
    rw [hfold, foldl_faAppend, faOfChunk_colLengths, faOfChunk_numRows]
  · intro ε results b hb
    exact (fqLoop_inv chunk_size
      (fun bl => bl.colLengths = List.replicate 5 bl.numRows)
      fqAppend_parity (by simp [FqBuilders.empty, FqBuilders.colLengths,
        FqBuilders.numRows, List.replicate])
      results FqBuilders.empty 0 (by simp [FqBuilders.empty, FqBuilders.colLengths,
        FqBuilders.numRows, List.replicate]) b hb).1

theorem claim_C1_witness :
    (gffOfChunk GffBuilders.empty [gffSample]).colLengths =
      List.replicate 9 (gffOfChunk GffBuilders.empty [gffSample]).numRows ∧
    ((batchesOf (gff2pq (ε := String) [Except.ok gffSample]).1).map
      GffBuilders.numRows).sum = 1 ∧
    (fqOfChunk (FqBuilders.empty, 0) [fqSample]).1.colLengths =
      List.replicate 5 (fqOfChunk (FqBuilders.empty, 0) [fqSample]).1.numRows := by
  refine ⟨?_, ?_, ?_⟩
  · exact claim_C1_row_count_parity.1 String [Except.ok gffSample]
      (gffOfChunk GffBuilders.empty [gffSample]) (by rw [gff2pq_single]; simp)
  · have h := claim_C1_row_count_parity.2.1 String [Except.ok gffSample]
      (by rw [gff2pq_single])
    simpa using h
  · exact claim_C1_row_count_parity.2.2.2.2.1 String [Except.ok fqSample]
      (fqOfChunk (FqBuilders.empty, 0) [fqSample]).1 (by rw [fq2pq_single]; simp)

theorem gffOfChunk_rows (c : List GffRecord) :
    (gffOfChunk GffBuilders.empty c).«attribute».rows =
      c.map (fun r => r.«attribute».map (fun kv => (kv.1, some kv.2))) := by
  set L := c.map (fun r => r.«attribute».map (fun kv => (kv.1, some kv.2))) with hL
  have hkeys : (gffOfChunk GffBuilders.empty c).«attribute».keys =
      (L.map (List.map Prod.fst)).flatten := by
    simp only [gffOfChunk, GffBuilders.empty, List.nil_append, hL, List.map_map]
    congr 1
    apply List.map_congr_left
    intro r _
    simp [List.map_map, Function.comp]
  have hvalues : (gffOfChunk GffBuilders.empty c).«attribute».values =
      (L.map (List.map Prod.snd)).flatten := by
    simp only [gffOfChunk, GffBuilders.empty, List.nil_append, hL, List.map_map]
    congr 1
    apply List.map_congr_left
    intro r _
    simp [List.map_map, Function.comp]
  have hsizes : (gffOfChunk GffBuilders.empty c).«attribute».entrySizes =
      L.map List.length := by
    simp only [gffOfChunk, GffBuilders.empty, List.nil_append, hL, List.map_map]
    apply List.map_congr_left
    intro r _
    simp
  rw [MapCol.rows, hkeys, hvalues, hsizes, zip_flatten_map Prod.fst Prod.snd L]
  have hid : L.map (fun l => l.map (fun p => (p.1, p.2))) = L := by
    conv_rhs => rw [← List.map_id L]
    apply List.map_congr_left
    intro l _
    simp
  rw [hid, splitSizes_flatten]

theorem gffOfChunk_attr_stats (c : List GffRecord) :
    (gffOfChunk GffBuilders.empty c).«attribute».keys.length =
      (gffOfChunk GffBuilders.empty c).«attribute».values.length ∧
    (gffOfChunk GffBuilders.empty c).«attribute».entrySizes.length =
      (gffOfChunk GffBuilders.empty c).numRows ∧
    (gffOfChunk GffBuilders.empty c).«attribute».entrySizes.sum =
      (gffOfChunk GffBuilders.empty c).«attribute».keys.length := by
  refine ⟨?_, ?_, ?_⟩
  · simp only [gffOfChunk, GffBuilders.empty, List.nil_append]
    rw [← sum_map_length, ← sum_map_length]
    simp only [List.map_map]
    congr 1
    apply List.map_congr_left
    intro r _
    simp
  · simp [gffOfChunk, GffBuilders.empty, GffBuilders.numRows]
  · simp only [gffOfChunk, GffBuilders.empty, List.nil_append]
    rw [← sum_map_length]
    simp only [List.map_map]
    congr 1
    apply List.map_congr_left
    intro r _
    simp

/-- C4: for every GFF record, `gff2pq` appends all attribute keys and then
all attribute values in equal counts and seals exactly one map entry per
record, so the attribute column reproduces, row by row, the source's
key/value entries in the source's insertion order (the normalized record
carries plain string values, each stored as a non-null map value). -/
theorem claim_C4_gff_attribute_map_fidelity (ε : Type) (records : List GffRecord) :
    ((batchesOf (gff2pq (ε := ε) (records.map Except.ok)).1).map
      (fun b => b.«attribute».rows)).flatten =
      records.map (fun r => r.«attribute».map (fun kv => (kv.1, some kv.2))) ∧
    (∀ b ∈ batchesOf (gff2pq (ε := ε) (records.map Except.ok)).1,
      b.«attribute».keys.length = b.«attribute».values.length ∧
      b.«attribute».entrySizes.length = b.numRows ∧
      b.«attribute».entrySizes.sum = b.«attribute».keys.length) := by
  constructor
  · exact gff_col_flatten records _ _ gffOfChunk_rows
  · intro b hb
    obtain ⟨recs, -, -, hfold⟩ :=
      runLoop_batches chunk_size_pos gffAppend (fun b => b) GffBuilders.empty
        RunResult.error (records.map Except.ok) b hb
    rw [hfold, foldl_gffAppend]
    exact gffOfChunk_attr_stats recs

theorem claim_C4_witness :
    ((batchesOf (gff2pq (ε := String) [Except.ok gffSample]).1).map
      (fun b => b.«attribute».rows)).flatten =
      [[("ID", some "g1"), ("Name", some "x")]] ∧
    (gffOfChunk GffBuilders.empty [gffSample]).«attribute».keys.length =
      (gffOfChunk GffBuilders.empty [gffSample]).«attribute».values.length := by
  constructor
  · have h := (claim_C4_gff_attribute_map_fidelity String [gffSample]).1
    simpa [gffSample] using h
  · exact ((claim_C4_gff_attribute_map_fidelity String [gffSample]).2
      (gffOfChunk GffBuilders.empty [gffSample])
      (by simp only [List.map_cons, List.map_nil]; rw [gff2pq_single]; simp)).1

theorem gff2pq_batch_sizes {ε : Type} (records : List GffRecord) :
    (batchesOf (gff2pq (ε := ε) (records.map Except.ok)).1).map GffBuilders.numRows =
      (chunkList chunk_size records).map List.length := by
  rw [gff2pq_map_ok]
  simp only [batchesOf_append, batchesOf_map_write_comp, batchesOf_close,
    batchesOf_nil, List.append_nil, List.map_map]
  exact List.map_congr_left (fun c _ => gffOfChunk_numRows c)

theorem write_records_to_file_batch_sizes {ε : Type} (records : List FastaRecord) :
    (batchesOf (write_records_to_file (ε := ε) (records.map Except.ok)).1).map
      FastaBuilders.numRows = (chunkList chunk_size records).map List.length := by
  rw [write_records_to_file_map_ok]
  simp only [batchesOf_append, batchesOf_map_write_comp, batchesOf_close,
    batchesOf_nil, List.append_nil, List.map_map]
  exact List.map_congr_left (fun c _ => faOfChunk_numRows c)

theorem fq2pq_batch_sizes {ε : Type} (records : List FastqRecord) :
    (batchesOf (fq2pq (ε := ε) (records.map Except.ok)).1).map FqBuilders.numRows =
      (chunkList chunk_size records).map List.length := by
  rw [fq2pq_map_ok]
  simp only [batchesOf_append, batchesOf_map_write, batchesOf_close,
    batchesOf_nil, List.append_nil]
  exact fqBatches_sizes _ _

/-- C5: with chunk size `N = 2^20`, an input of exactly `k*N + r`
successfully decoded records (`0 < r < N`) yields `k` full batches of `N`
rows plus one final batch of `r` rows; an input of exactly `k*N` records
yields exactly `k` batches; and a batch written to the sink never has zero
rows. -/
theorem claim_C5_chunk_boundary_correctness :
    (∀ (ε : Type) (records : List GffRecord) (k r : Nat), 0 < r → r < chunk_size →
      records.length = k * chunk_size + r →
      (batchesOf (gff2pq (ε := ε) (records.map Except.ok)).1).map GffBuilders.numRows =
        List.replicate k chunk_size ++ [r]) ∧
    (∀ (ε : Type) (records : List GffRecord) (k : Nat), records.length = k * chunk_size →
      (batchesOf (gff2pq (ε := ε) (records.map Except.ok)).1).map GffBuilders.numRows =
        List.replicate k chunk_size) ∧
    (∀ (ε : Type) (records : List FastqRecord) (k r : Nat), 0 < r → r < chunk_size →
      records.length = k * chunk_size + r →
      (batchesOf (fq2pq (ε := ε) (records.map Except.ok)).1).map FqBuilders.numRows =
        List.replicate k chunk_size ++ [r]) ∧
    (∀ (ε : Type) (records : List FastqRecord) (k : Nat), records.length = k * chunk_size →
      (batchesOf (fq2pq (ε := ε) (records.map Except.ok)).1).map FqBuilders.numRows =
        List.replicate k chunk_size) ∧
    (∀ (ε : Type) (results : List (Except ε GffRecord)),
      ∀ b ∈ batchesOf (gff2pq results).1, 0 < b.numRows) ∧
    (∀ (ε : Type) (results : List (Except ε FastaRecord)),
      ∀ b ∈ batchesOf (write_records_to_file results).1, 0 < b.numRows) ∧
    (∀ (ε : Type) (results : List (Except ε FastqRecord)),
      ∀ b ∈ batchesOf (fq2pq results).1, 0 < b.numRows) := by
  refine ⟨?_, ?_, ?_, ?_, ?_, ?_, ?_⟩
  · intro ε records k r hr hrn hl
    rw [gff2pq_batch_sizes, chunkList_sizes_rem chunk_size_pos k records r hr (by omega) hl]
  · intro ε records k hl
    rw [gff2pq_batch_sizes, chunkList_sizes_exact chunk_size_pos k records hl]
  · intro ε records k r hr hrn hl
    rw [fq2pq_batch_sizes, chunkList_sizes_rem chunk_size_pos k records r hr (by omega) hl]
  · intro ε records k hl
    rw [fq2pq_batch_sizes, chunkList_sizes_exact chunk_size_pos k records hl]
  · intro ε results b hb
    obtain ⟨recs, hne, -, hfold⟩ :=
      runLoop_batches chunk_size_pos gffAppend (fun b => b) GffBuilders.empty
        RunResult.error results b hb
    rw [hfold, foldl_gffAppend, gffOfChunk_numRows]
    exact List.length_pos.mpr hne
  · intro ε results b hb
    obtain ⟨recs, hne, -, hfold⟩ :=
      runLoop_batches chunk_size_pos faAppend (fun b => b) FastaBuilders.empty
        RunResult.panicked results b hb
    rw [hfold, foldl_faAppend, faOfChunk_numRows]
    exact List.length_pos.mpr hne
  · intro ε results b hb
    exact (fqLoop_inv chunk_size (fun _ => True) (fun _ _ _ => trivial) trivial
      results FqBuilders.empty 0 trivial b hb).2

theorem claim_C5_witness :
    (batchesOf (gff2pq (ε := String) ([gffSample].map Except.ok)).1).map
      GffBuilders.numRows = List.replicate 0 chunk_size ++ [1] ∧
    (batchesOf (gff2pq (ε := String) (([] : List GffRecord).map Except.ok)).1).map
      GffBuilders.numRows = List.replicate 0 chunk_size ∧
    (batchesOf (fq2pq (ε := String) ([fqSample].map Except.ok)).1).map
      FqBuilders.numRows = List.replicate 0 chunk_size ++ [1] ∧
    0 < (gffOfChunk GffBuilders.empty [gffSample]).numRows := by
  refine ⟨?_, ?_, ?_, ?_⟩
  · exact claim_C5_chunk_boundary_correctness.1 String [gffSample] 0 1 (by decide)
      (by norm_num [chunk_size]) (by simp)
  · exact claim_C5_chunk_boundary_correctness.2.1 String [] 0 (by simp)
  · exact claim_C5_chunk_boundary_correctness.2.2.1 String [fqSample] 0 1 (by decide)
      (by norm_num [chunk_size]) (by simp)
  · exact claim_C5_chunk_boundary_correctness.2.2.2.2.1 String [Except.ok gffSample]
      (gffOfChunk GffBuilders.empty [gffSample]) (by rw [gff2pq_single]; simp)

/-- C6: for every successfully decoded FASTQ record, `fq2pq` writes to the
`number` column the pipeline-local counter value equal to the record's
0-based ordinal over the whole conversion — starting at 0, incremented by
one per record, never reset between chunks: the `number` cells across all
batches, in order, are exactly `0, 1, 2, …`. -/
theorem claim_C6_fastq_read_number (ε : Type) (records : List FastqRecord) :
    ((batchesOf (fq2pq (ε := ε) (records.map Except.ok)).1).map
      (fun b => b.number)).flatten =
      (List.range records.length).map (fun i : Nat => some ((i : Int))) := by
  rw [fq2pq_map_ok]
  simp only [batchesOf_append, batchesOf_map_write, batchesOf_close, batchesOf_nil,
    List.append_nil]
  rw [fqBatches_number_flatten, chunkList_flatten]
  apply List.map_congr_left
  intro i _
  simp

/-- C7: a conversion on an input whose records all decode (including the
empty input) writes its batches and then invokes the sink's finalize step
`writer.close` exactly once, as the last sink interaction, and returns
success; the empty input produces zero batches and a single close. -/
theorem claim_C7_empty_input_and_finalize_once :
    (∀ (ε : Type) (records : List GffRecord), ∃ ws : List GffBuilders,
      (gff2pq (ε := ε) (records.map Except.ok)).1 =
        ws.map SinkEvent.write ++ [SinkEvent.close] ∧
      (gff2pq (ε := ε) (records.map Except.ok)).2 = RunResult.success) ∧
    (∀ ε : Type, gff2pq (ε := ε) [] = ([SinkEvent.close], RunResult.success)) ∧
    (∀ (ε : Type) (records : List FastaRecord), ∃ ws : List FastaBuilders,
      (write_records_to_file (ε := ε) (records.map Except.ok)).1 =
        ws.map SinkEvent.write ++ [SinkEvent.close] ∧
      (write_records_to_file (ε := ε) (records.map Except.ok)).2 = RunResult.success) ∧
    (∀ ε : Type, write_records_to_file (ε := ε) [] = ([SinkEvent.close], RunResult.success)) ∧
    (∀ (ε : Type) (records : List FastqRecord), ∃ ws : List FqBuilders,
      (fq2pq (ε := ε) (records.map Except.ok)).1 =
        ws.map SinkEvent.write ++ [SinkEvent.close] ∧
      (fq2pq (ε := ε) (records.map Except.ok)).2 = RunResult.success) ∧
    (∀ ε : Type, fq2pq (ε := ε) [] = ([SinkEvent.close], RunResult.success)) := by
  refine ⟨?_, ?_, ?_, ?_, ?_, ?_⟩
  · intro ε records
    refine ⟨(chunkList chunk_size records).map (fun c => gffOfChunk GffBuilders.empty c), ?_, ?_⟩
    · rw [gff2pq_map_ok]
      simp [List.map_map]
    · rw [gff2pq_map_ok]
  · intro ε
    rw [gff2pq, runLoop_nil]
  · intro ε records
    refine ⟨(chunkList chunk_size records).map (fun c => faOfChunk FastaBuilders.empty c), ?_, ?_⟩
    · rw [write_records_to_file_map_ok]
      simp [List.map_map]
    · rw [write_records_to_file_map_ok]
  · intro ε
    rw [write_records_to_file, runLoop_nil]
  · intro ε records
    refine ⟨fqBatches 0 (chunkList chunk_size records), ?_, ?_⟩
    · rw [fq2pq_map_ok]
    · rw [fq2pq_map_ok]
  · intro ε
    rw [fq2pq, fqLoop_nil]

/-- C8: rows appear in the output in exactly the input order: the batch
sequence is the chunk sequence of the input in order, and concatenating
the per-batch columns reproduces the input records' fields in input order,
with no reordering within or across chunks. -/
theorem claim_C8_order_preservation (ε : Type) :
    (∀ records : List GffRecord,
      batchesOf (gff2pq (ε := ε) (records.map Except.ok)).1 =
        (chunkList chunk_size records).map (fun c => gffOfChunk GffBuilders.empty c) ∧
      ((batchesOf (gff2pq (ε := ε) (records.map Except.ok)).1).map
        (fun b => b.seqname)).flatten = records.map (fun r => some r.seqname)) ∧
    (∀ records : List FastaRecord,
      batchesOf (write_records_to_file (ε := ε) (records.map Except.ok)).1 =
        (chunkList chunk_size records).map (fun c => faOfChunk FastaBuilders.empty c) ∧
      ((batchesOf (write_records_to_file (ε := ε) (records.map Except.ok)).1).map
        (fun b => b.id)).flatten = records.map (fun r => r.id)) ∧
    (∀ records : List FastqRecord,
      batchesOf (fq2pq (ε := ε) (records.map Except.ok)).1 =
        fqBatches 0 (chunkList chunk_size records) ∧
      ((batchesOf (fq2pq (ε := ε) (records.map Except.ok)).1).map
        (fun b => b.id)).flatten = records.map (fun r => some r.id)) ∧
    (∀ (α : Type) (l : List α), (chunkList chunk_size l).flatten = l) := by
  refine ⟨fun records => ⟨?_, ?_⟩, fun records => ⟨?_, ?_⟩, fun records => ⟨?_, ?_⟩,
    fun α l => chunkList_flatten chunk_size l⟩
  · rw [gff2pq_map_ok]
    simp
  · exact gff_col_flatten records _ _ (fun c => by simp [gffOfChunk, GffBuilders.empty])
  · rw [write_records_to_file_map_ok]
    simp
  · exact fa_col_flatten records _ _ (fun c => by simp [faOfChunk, FastaBuilders.empty])
  · rw [fq2pq_map_ok]
    simp
  · rw [fq2pq_map_ok]
    simp only [batchesOf_append, batchesOf_map_write, batchesOf_close, batchesOf_nil,
      List.append_nil]
    rw [fqBatches_id_flatten, chunkList_flatten]

/-- C9: the conversions buffer at most one chunk of records at a time: in
the record-at-a-time view of the chunked loop the pending buffer never
exceeds `chunk_size` records, that view produces exactly the batches of
the conversions, and every batch handed to the sink holds at most
`chunk_size` rows. -/
theorem claim_C9_bounded_buffering :
    (∀ (ρ β : Type) (mk : List ρ → β) (pre : List ρ),
      streamBuffer chunk_size mk pre ≤ chunk_size) ∧
    (∀ (ε : Type) (records : List GffRecord),
      streamRun chunk_size (fun c => gffOfChunk GffBuilders.empty c) records =
        batchesOf (gff2pq (ε := ε) (records.map Except.ok)).1) ∧
    (∀ (ε : Type) (records : List FastaRecord),
      streamRun chunk_size (fun c => faOfChunk FastaBuilders.empty c) records =
        batchesOf (write_records_to_file (ε := ε) (records.map Except.ok)).1) ∧
    (∀ (ε : Type) (results : List (Except ε GffRecord)),
      ∀ b ∈ batchesOf (gff2pq results).1, b.numRows ≤ chunk_size) ∧
    (∀ (ε : Type) (results : List (Except ε FastaRecord)),
      ∀ b ∈ batchesOf (write_records_to_file results).1, b.numRows ≤ chunk_size) ∧
    (∀ (ε : Type) (records : List FastqRecord),
      ∀ b ∈ batchesOf (fq2pq (ε := ε) (records.map Except.ok)).1,
        b.numRows ≤ chunk_size) := by
  refine ⟨?_, ?_, ?_, ?_, ?_, ?_⟩
  · intro ρ β mk pre
    have h := streamStep_foldl_lt (β := β) chunk_size_pos mk pre ([], [])
      (by simp [chunk_size])
    rw [streamBuffer]
    omega
  · intro ε records
    rw [streamRun_eq_chunkList chunk_size_pos, gff2pq_map_ok]
    simp
  · intro ε records
    rw [streamRun_eq_chunkList chunk_size_pos, write_records_to_file_map_ok]
    simp
  · intro ε results b hb
    obtain ⟨recs, -, hlen, hfold⟩ :=
      runLoop_batches chunk_size_pos gffAppend (fun b => b) GffBuilders.empty
        RunResult.error results b hb
    rw [hfold, foldl_gffAppend, gffOfChunk_numRows]
    exact hlen
  · intro ε results b hb
    obtain ⟨recs, -, hlen, hfold⟩ :=
      runLoop_batches chunk_size_pos faAppend (fun b => b) FastaBuilders.empty
        RunResult.panicked results b hb
    rw [hfold, foldl_faAppend, faOfChunk_numRows]
    exact hlen
  · intro ε records b hb
    rw [fq2pq_map_ok] at hb
    simp only [batchesOf_append, batchesOf_map_write, batchesOf_close, batchesOf_nil,
      List.append_nil] at hb
    obtain ⟨c, m, hc, hbc⟩ := fqBatches_mem _ _ _ hb
    rw [hbc]
    have : (fqOfChunk (FqBuilders.empty, m) c).1.numRows = c.length := by
      simp [fqOfChunk, FqBuilders.empty, FqBuilders.numRows]
    rw [this]
    exact chunkList_length_le chunk_size_pos records c hc

theorem claim_C9_witness :
    streamBuffer chunk_size (fun c => gffOfChunk GffBuilders.empty c) [gffSample] ≤
      chunk_size ∧
    (gffOfChunk GffBuilders.empty [gffSample]).numRows ≤ chunk_size ∧
    (fqOfChunk (FqBuilders.empty, 0) [fqSample]).1.numRows ≤ chunk_size := by
  refine ⟨?_, ?_, ?_⟩
  · exact claim_C9_bounded_buffering.1 GffRecord GffBuilders
      (fun c => gffOfChunk GffBuilders.empty c) [gffSample]
  · exact claim_C9_bounded_buffering.2.2.2.1 String [Except.ok gffSample]
      (gffOfChunk GffBuilders.empty [gffSample]) (by rw [gff2pq_single]; simp)
  · exact claim_C9_bounded_buffering.2.2.2.2.2 String [fqSample]
      (fqOfChunk (FqBuilders.empty, 0) [fqSample]).1
      (by simp only [List.map_cons, List.map_nil]; rw [fq2pq_single]; simp)
